import Mathlib

/-!
Shallow embedding of metro's DeltaBundler HMR serializer
(packages/metro/src/DeltaBundler/Serializers/hmrJSBundle.js).

The serializer converts a delta (added / modified / deleted modules) over a
module dependency graph into a hot-module-replacement payload.  External
collaborators that live outside this file's source (isJsModule, wrapModule,
getSourceMapInfo, fromRawMappings, getInlineSourceMappingURL,
addParamsToDefineCall, node's path and url modules) are modelled as abstract
function-valued fields of a Prims structure; every theorem below holds for
every instantiation of those primitives.

JavaScript Maps and Sets iterate in insertion order, and the plain objects
used by the traversal only carry non-integer string keys, which also iterate
in insertion order; both are therefore modelled as ordered association lists.
Machine integers do not occur: module ids are opaque numbers produced by the
injected createModuleId function, modelled as Nat.
-/

namespace Metro

/-- One module record of the dependency graph.  Only the fields read by
hmrJSBundle.js are modelled: the stable path, the set (insertion-ordered) of
inverse dependencies, and the module's remaining data collapsed into an
opaque code blob consumed by the abstract primitives. -/
structure Module where
  path : String
  inverseDependencies : List String
  code : String
deriving Repr, DecidableEq

/-- The dependency graph: a Map from module path to module record,
modelled as an insertion-ordered association list. -/
structure Graph where
  dependencies : List (String × Module)
deriving Repr, DecidableEq

/-- Association-list lookup used to model Map.prototype.get. -/
def findEntryValue : List (String × Module) → String → Option Module
  | [], _ => none
  | e :: rest, path => if e.1 = path then some e.2 else findEntryValue rest path

/-- Model of graph.dependencies.get(path). -/
def Graph.get (graph : Graph) (path : String) : Option Module :=
  findEntryValue graph.dependencies path

/-- The delta produced by the incremental bundler: added and modified are
Maps from path to module (of which only .values() is consumed, hence the
value lists), deleted is a Set of paths in enumeration order. -/
structure DeltaResult where
  added : List Module
  modified : List Module
  deleted : List String
deriving Repr, DecidableEq

/-- The mutable client URL record (node's url object).  Only the pathname
field is ever written by the serializer; every other field is collapsed into
an opaque rest component consumed by the abstract url.format primitive. -/
structure ClientUrl where
  pathname : String
  rest : String
deriving Repr, DecidableEq

/-- The Options record threaded through the serializer: the mutable client
URL template, the injected deterministic path-to-id function, and the
project root used to relativize bundle paths. -/
structure Options where
  clientUrl : ClientUrl
  createModuleId : String → Nat
  projectRoot : String

/-- Result of getSourceMapInfo: the serializer reads its path field and
hands the whole record to the source-map merge primitive; the remaining
payload is collapsed into an opaque data blob. -/
structure MapInfo where
  path : String
  data : String
deriving Repr, DecidableEq

/-- The external collaborator primitives required by hmrJSBundle.js, kept
abstract: the theorems below hold for every instantiation. -/
structure Prims where
  isJsModule : Module → Bool
  wrapModule : Module → Options → Bool → String
  getSourceMapInfo : Module → MapInfo
  fromRawMappingsToString : MapInfo → String
  getInlineSourceMappingURL : String → String
  pathDirname : String → String
  pathBasenameNoExt : String → String
  pathJoin : String → String → String
  pathRelative : String → String → String
  urlFormat : ClientUrl → String
  addParamsToDefineCall : String → List (Nat × List Nat) → String

/-- The inverse-dependency accumulator object: a plain JS object with
string (path) keys mapping to arrays of paths, modelled as an
insertion-ordered association list. -/
abbrev IDMap := List (String × List String)

/-- Model of the `path in inverseDependencies` key test combined with value
access: association-list lookup on the accumulator object. -/
def idLookup : IDMap → String → Option (List String)
  | [], _ => none
  | e :: rest, path => if e.1 = path then some e.2 else idLookup rest path

/-- Model of `inverseDependencies[path] = []`: the path is a fresh string
key, so it is appended at the end of the object's key order. -/
def idInsertEmpty (acc : IDMap) (path : String) : IDMap :=
  acc ++ [(path, [])]

/-- Model of `inverseDependencies[path].push(inverse)`: the array stored
under the key grows in place, the key order is unchanged. -/
def idPush (acc : IDMap) (path inverse : String) : IDMap :=
  acc.map fun e => if e.1 = path then (e.1, e.2 ++ [inverse]) else e

/-- Embedding of the for-loop of _getInverseDependencies (lines 162-166),
generic over the recursive step: push the inverse path onto the current
entry, then recurse into it. -/
def inverseLoopWith (step : String → IDMap → Option IDMap) (path : String) :
    List String → IDMap → Option IDMap
  | [], inverseDependencies => some inverseDependencies
  | inverse :: rest, inverseDependencies =>
    match step inverse (idPush inverseDependencies path inverse) with
    | none => none
    | some acc => inverseLoopWith step path rest acc

/-- Embedding of _getInverseDependencies (hmrJSBundle.js lines 145-169).
The JS recursion is not structurally recursive, so the embedding carries an
explicit fuel argument consumed once per nested call; the theorem
inverse_dependency_resolution_terminates proves that
graph.dependencies.length + 1 fuel always suffices, so the fuel is a formal
device, not a semantic one. -/
def _getInverseDependencies (graph : Graph) :
    Nat → String → IDMap → Option IDMap
  | 0, _, _ => none
  | fuel + 1, path, inverseDependencies =>
    if (idLookup inverseDependencies path).isSome then
      some inverseDependencies
    else
      match graph.get path with
      | none => some inverseDependencies
      | some module =>
        inverseLoopWith
          (fun inverse acc => _getInverseDependencies graph fuel inverse acc)
          path module.inverseDependencies
          (idInsertEmpty inverseDependencies path)

/-- The traversal's inner loop with the recursive step instantiated at a
given fuel level. -/
def inverseLoop (graph : Graph) (fuel : Nat) (path : String)
    (invs : List String) (acc : IDMap) : Option IDMap :=
  inverseLoopWith (_getInverseDependencies graph fuel) path invs acc

theorem getInv_zero (graph : Graph) (path : String) (acc : IDMap) :
    _getInverseDependencies graph 0 path acc = none := rfl

theorem getInv_succ (graph : Graph) (fuel : Nat) (path : String)
    (acc : IDMap) :
    _getInverseDependencies graph (fuel + 1) path acc =
      if (idLookup acc path).isSome then some acc
      else
        match graph.get path with
        | none => some acc
        | some module =>
          inverseLoop graph fuel path module.inverseDependencies
            (idInsertEmpty acc path) := rfl

theorem inverseLoop_nil (graph : Graph) (fuel : Nat) (path : String)
    (acc : IDMap) : inverseLoop graph fuel path [] acc = some acc := rfl

theorem inverseLoop_cons (graph : Graph) (fuel : Nat) (path inverse : String)
    (rest : List String) (acc : IDMap) :
    inverseLoop graph fuel path (inverse :: rest) acc =
      match _getInverseDependencies graph fuel inverse
          (idPush acc path inverse) with
      | none => none
      | some acc' => inverseLoop graph fuel path rest acc' := rfl

/-- The top-level call `_getInverseDependencies(module.path, graph)` with the
default empty accumulator, run with provably sufficient fuel. -/
def resolveInverseDependencies (graph : Graph) (path : String) : IDMap :=
  (_getInverseDependencies graph (graph.dependencies.length + 1) path []).getD []

/-- Model of the assignment `inverseDependenciesById[id] = ...` on a plain
JS object: overwrite the value if the key exists, otherwise append. -/
def setKey (acc : List (Nat × List Nat)) (k : Nat) (v : List Nat) :
    List (Nat × List Nat) :=
  if acc.any (fun e => e.1 = k) then
    acc.map fun e => if e.1 = k then (k, v) else e
  else
    acc ++ [(k, v)]

/-- Embedding of the Object.keys(...).forEach loop of _prepareModule
(lines 129-134): translate the path-keyed inverse-dependency map into an
id-keyed map through the injected createModuleId function. -/
def inverseDependenciesById (options : Options)
    (inverseDependencies : IDMap) : List (Nat × List Nat) :=
  inverseDependencies.foldl
    (fun acc e =>
      setKey acc (options.createModuleId e.1) (e.2.map options.createModuleId))
    []

/-- Embedding of _prepareModule (lines 116-137): wrap the module's code in
dev mode, resolve its inverse dependencies, translate them to ids and inject
them into the define call. -/
def _prepareModule (p : Prims) (module : Module) (graph : Graph)
    (options : Options) : String :=
  let code := p.wrapModule module options true
  let inverseDependencies := resolveInverseDependencies graph module.path
  p.addParamsToDefineCall code (inverseDependenciesById options inverseDependencies)

/-- The per-module bundle pathname computed on lines 62-68:
path.relative(projectRoot, path.join(path.dirname(mapInfo.path),
path.basename(mapInfo.path, path.extname(mapInfo.path)) + ".bundle")). -/
def bundlePathname (p : Prims) (projectRoot mapInfoPath : String) : String :=
  p.pathRelative projectRoot
    (p.pathJoin (p.pathDirname mapInfoPath)
      (p.pathBasenameNoExt mapInfoPath ++ ".bundle"))

/-- The inline source-map URL pushed for one module (lines 49-59):
getInlineSourceMappingURL(fromRawMappings([getSourceMapInfo(module)])
.toString(...)). -/
def sourceMappingURLOf (p : Prims) (module : Module) : String :=
  p.getInlineSourceMappingURL
    (p.fromRawMappingsToString (p.getSourceMapInfo module))

/-- The per-module overwrite of options.clientUrl.pathname performed on
lines 62-68: the options record with the pathname replaced by the module's
bundle pathname, every other field untouched. -/
def stepOptions (p : Prims) (options : Options) (module : Module) : Options :=
  { options with
      clientUrl :=
        { options.clientUrl with
            pathname :=
              bundlePathname p options.projectRoot
                (p.getSourceMapInfo module).path } }

/-- The per-module source URL pushed on line 70: url.format of the client
URL right after its pathname was overwritten for this module. -/
def sourceURLOf (p : Prims) (options : Options) (module : Module) : String :=
  p.urlFormat (stepOptions p options module).clientUrl

/-- The three parallel output arrays of generateModules. -/
structure GenModulesResult where
  modules : List (Nat × String)
  sourceMappingURLs : List String
  sourceURLs : List String
deriving Repr, DecidableEq

/-- Embedding of generateModules (lines 32-77).  The source mutates
options.clientUrl.pathname once per eligible module; the embedding threads
the options record explicitly and returns its final state alongside the
three parallel arrays. -/
def generateModules (p : Prims) (sourceModules : List Module) (graph : Graph)
    (options : Options) : GenModulesResult × Options :=
  match sourceModules with
  | [] => (⟨[], [], []⟩, options)
  | module :: rest =>
    if p.isJsModule module then
      let code := _prepareModule p module graph options
      let sourceMappingURL := sourceMappingURLOf p module
      let options' : Options := stepOptions p options module
      let sourceURL := p.urlFormat options'.clientUrl
      let result := generateModules p rest graph options'
      (⟨(options.createModuleId module.path, code) :: result.1.modules,
        sourceMappingURL :: result.1.sourceMappingURLs,
        sourceURL :: result.1.sourceURLs⟩,
       result.2)
    else
      generateModules p rest graph options

/-- The HMR payload assembled by hmrJSBundle (field order as in the source
return type annotation, lines 83-91). -/
structure HMRPayload where
  added : List (Nat × String)
  addedSourceMappingURLs : List String
  addedSourceURLs : List String
  deleted : List Nat
  modified : List (Nat × String)
  modifiedSourceMappingURLs : List String
  modifiedSourceURLs : List String
deriving Repr, DecidableEq

/-- Embedding of hmrJSBundle (lines 79-114).  The source mutates the
caller's options.clientUrl object; the embedding returns the payload
together with the final state of the options record. -/
def hmrJSBundle (p : Prims) (delta : DeltaResult) (graph : Graph)
    (options : Options) : HMRPayload × Options :=
  let addedResult := generateModules p delta.added graph options
  let modifiedResult := generateModules p delta.modified graph addedResult.2
  (⟨addedResult.1.modules,
    addedResult.1.sourceMappingURLs,
    addedResult.1.sourceURLs,
    delta.deleted.map (fun path => options.createModuleId path),
    modifiedResult.1.modules,
    modifiedResult.1.sourceMappingURLs,
    modifiedResult.1.sourceURLs⟩,
   modifiedResult.2)

/-! Basic lemmas about the accumulator-object operations. -/

set_option linter.unnecessarySeqFocus false

theorem idLookup_idPush (acc : IDMap) (path inverse k : String) :
    idLookup (idPush acc path inverse) k =
      if k = path then (idLookup acc path).map (fun v => v ++ [inverse])
      else idLookup acc k := by
  induction acc with
  | nil => simp [idPush, idLookup]
  | cons e rest ih =>
    simp only [idPush, List.map_cons] at ih ⊢
    by_cases h1 : e.1 = path <;> by_cases h2 : k = path <;>
      simp_all [idLookup] <;> simp_all [eq_comm]

theorem idLookup_idInsertEmpty (acc : IDMap) (path k : String) :
    idLookup (idInsertEmpty acc path) k =
      if (idLookup acc k).isSome then idLookup acc k
      else if path = k then some [] else none := by
  induction acc with
  | nil => simp [idInsertEmpty, idLookup]
  | cons e rest ih =>
    simp only [idInsertEmpty, List.cons_append] at ih ⊢
    by_cases h1 : e.1 = k <;> simp_all [idLookup]

theorem idKeys_idPush (acc : IDMap) (path inverse : String) :
    (idPush acc path inverse).map Prod.fst = acc.map Prod.fst := by
  induction acc with
  | nil => simp [idPush]
  | cons e rest ih =>
    simp only [idPush, List.map_cons] at ih ⊢
    split <;> simp_all

theorem idKeys_idInsertEmpty (acc : IDMap) (path : String) :
    (idInsertEmpty acc path).map Prod.fst = acc.map Prod.fst ++ [path] := by
  simp [idInsertEmpty]

theorem idLookup_eq_none_iff (acc : IDMap) (k : String) :
    idLookup acc k = none ↔ k ∉ acc.map Prod.fst := by
  induction acc with
  | nil => simp [idLookup]
  | cons e rest ih =>
    by_cases h : e.1 = k <;> simp_all [idLookup, eq_comm]

/-! Invariants of the inverse-dependency traversal: entries already present
in the accumulator are preserved verbatim, every entry added by a call is a
graph key carrying exactly the full inverse-dependency list of its module,
and the key list stays duplicate-free. -/

/-- Entries present in the first accumulator survive unchanged. -/
def PreservesEntries (acc acc' : IDMap) : Prop :=
  ∀ k, (idLookup acc k).isSome → idLookup acc' k = idLookup acc k

/-- Entries present in the first accumulator under a key other than the
excluded in-progress path survive unchanged. -/
def PreservesOtherEntries (path : String) (acc acc' : IDMap) : Prop :=
  ∀ k, k ≠ path → (idLookup acc k).isSome → idLookup acc' k = idLookup acc k

/-- Every key added on top of the first accumulator is a graph key whose
entry is the complete inverse-dependency list of its module. -/
def NewEntriesComplete (graph : Graph) (acc acc' : IDMap) : Prop :=
  ∀ k, idLookup acc k = none →
    idLookup acc' k = none ∨
      ∃ m, graph.get k = some m ∧ idLookup acc' k = some m.inverseDependencies

/-- Duplicate-freeness of the key list is preserved. -/
def KeysNodupPreserved (acc acc' : IDMap) : Prop :=
  (acc.map Prod.fst).Nodup → (acc'.map Prod.fst).Nodup

theorem getInv_spec (graph : Graph) : ∀ fuel : Nat,
    ∀ (path : String) (acc acc' : IDMap),
      _getInverseDependencies graph fuel path acc = some acc' →
      PreservesEntries acc acc' ∧ NewEntriesComplete graph acc acc' ∧
        KeysNodupPreserved acc acc' := by
  have loop_spec :
      ∀ fuel : Nat,
        (∀ (path : String) (acc acc' : IDMap),
          _getInverseDependencies graph fuel path acc = some acc' →
          PreservesEntries acc acc' ∧ NewEntriesComplete graph acc acc' ∧
            KeysNodupPreserved acc acc') →
        ∀ (invs : List String) (path : String) (acc acc' : IDMap)
          (v : List String),
          inverseLoop graph fuel path invs acc = some acc' →
          idLookup acc path = some v →
          idLookup acc' path = some (v ++ invs) ∧
            PreservesOtherEntries path acc acc' ∧
            NewEntriesComplete graph acc acc' ∧ KeysNodupPreserved acc acc' := by
    intro fuel hG invs
    induction invs with
    | nil =>
      intro path acc acc' v h hv
      rw [inverseLoop_nil] at h
      cases h
      exact ⟨by simpa using hv, fun k _ _ => rfl, fun k hk => Or.inl hk,
        fun h => h⟩
    | cons inverse rest ih =>
      intro path acc acc' v h hv
      rw [inverseLoop_cons] at h
      cases hmid : _getInverseDependencies graph fuel inverse
          (idPush acc path inverse) with
      | none => rw [hmid] at h; cases h
      | some acc₂ =>
        rw [hmid] at h
        obtain ⟨hpres, hnew, hnodup⟩ := hG inverse _ acc₂ hmid
        have hlook₁ : idLookup (idPush acc path inverse) path
            = some (v ++ [inverse]) := by
          rw [idLookup_idPush]; simp [hv]
        have hlook₂ : idLookup acc₂ path = some (v ++ [inverse]) := by
          rw [hpres path (by simp [hlook₁]), hlook₁]
        obtain ⟨c1, c2, c3, c4⟩ := ih path acc₂ acc' (v ++ [inverse]) h hlook₂
        refine ⟨by simpa using c1, ?_, ?_, ?_⟩
        · intro k hk hsome
          have h₁ : idLookup (idPush acc path inverse) k = idLookup acc k := by
            rw [idLookup_idPush]; simp [hk]
          rw [c2 k hk (by rw [hpres k (by simp [h₁, hsome]), h₁]; exact hsome),
            hpres k (by simp [h₁, hsome]), h₁]
        · intro k hk
          have hkp : k ≠ path := by
            intro he; rw [he, hv] at hk; cases hk
          have h₁ : idLookup (idPush acc path inverse) k = idLookup acc k := by
            rw [idLookup_idPush]; simp [hkp]
          rcases hnew k (by rw [h₁]; exact hk) with h₂ | ⟨m, hm, hmv⟩
          · rcases c3 k h₂ with h₃ | ⟨m, hm, hmv⟩
            · exact Or.inl h₃
            · exact Or.inr ⟨m, hm, hmv⟩
          · exact Or.inr ⟨m, hm, by rw [c2 k hkp (by simp [hmv]), hmv]⟩
        · intro hnd
          exact c4 (hnodup (by rwa [idKeys_idPush]))
  intro fuel
  induction fuel with
  | zero =>
    intro path acc acc' h
    rw [getInv_zero] at h
    exact Option.noConfusion h
  | succ fuel ih =>
    intro path acc acc' h
    rw [getInv_succ] at h
    by_cases hmem : (idLookup acc path).isSome
    · rw [if_pos hmem] at h
      cases h
      exact ⟨fun k _ => rfl, fun k hk => Or.inl hk, fun h => h⟩
    · rw [if_neg hmem] at h
      have hnone : idLookup acc path = none :=
        Option.not_isSome_iff_eq_none.mp hmem
      cases hget : graph.get path with
      | none =>
        rw [hget] at h
        cases h
        exact ⟨fun k _ => rfl, fun k hk => Or.inl hk, fun h => h⟩
      | some module =>
        rw [hget] at h
        have hv : idLookup (idInsertEmpty acc path) path = some [] := by
          rw [idLookup_idInsertEmpty, hnone]; simp
        obtain ⟨c1, c2, c3, c4⟩ := loop_spec fuel ih
          module.inverseDependencies path _ acc' [] h hv
        refine ⟨?_, ?_, ?_⟩
        · intro k hsome
          have hkp : k ≠ path := by
            intro he; rw [he, hnone] at hsome; cases hsome
          have h₁ : idLookup (idInsertEmpty acc path) k = idLookup acc k := by
            rw [idLookup_idInsertEmpty, if_pos hsome]
          rw [c2 k hkp (by simp [h₁, hsome]), h₁]
        · intro k hk
          by_cases hkp : k = path
          · subst hkp
            exact Or.inr ⟨module, hget, by simpa using c1⟩
          · have h₁ : idLookup (idInsertEmpty acc path) k = none := by
              rw [idLookup_idInsertEmpty, hk]
              simp [Ne.symm hkp]
            exact c3 k h₁
        · intro hnd
          refine c4 ?_
          rw [idKeys_idInsertEmpty]
          simp only [List.nodup_append, List.nodup_cons, List.not_mem_nil,
            not_false_iff, List.nodup_nil, and_true, true_and]
          exact ⟨hnd, by
            simpa using (idLookup_eq_none_iff acc path).mp hnone⟩

/-! Fuel sufficiency: the recursion depth of the traversal is bounded by the
number of graph entries whose key is not yet in the accumulator, so
graph.dependencies.length + 1 fuel always suffices.  This is the formal
counterpart of the source's termination argument: a path is marked visited
(empty entry) before its inverse dependencies are recursed into. -/

/-- Number of graph entries whose key has no entry in the accumulator yet. -/
def missingCount (graph : Graph) (acc : IDMap) : Nat :=
  ((graph.dependencies.map Prod.fst).filter
    fun k => (idLookup acc k).isNone).length

theorem filter_length_lt {α : Type} (l : List α) (p q : α → Bool)
    (himp : ∀ x, q x = true → p x = true) (a : α) (ha : a ∈ l)
    (hpa : p a = true) (hqa : q a = false) :
    (l.filter q).length < (l.filter p).length := by
  induction l with
  | nil => cases ha
  | cons b l ih =>
    rcases List.mem_cons.mp ha with rfl | hb
    · simp only [List.filter_cons, hpa, hqa, if_true, if_false]
      exact Nat.lt_succ_of_le
        (List.Sublist.length_le (List.monotone_filter_right l himp))
    · cases hqb : q b
      · cases hpb : p b <;> simp only [List.filter_cons, hpb, hqb] <;>
          first
            | exact ih hb
            | exact Nat.lt_succ_of_lt (ih hb)
      · have hpb := himp b hqb
        simp only [List.filter_cons, hpb, hqb, if_true]
        exact Nat.succ_lt_succ (ih hb)

theorem findEntryValue_mem_keys :
    ∀ (l : List (String × Module)) (path : String) (m : Module),
      findEntryValue l path = some m → path ∈ l.map Prod.fst
  | [], path, m, h => by simp [findEntryValue] at h
  | e :: rest, path, m, h => by
    simp only [findEntryValue] at h
    by_cases he : e.1 = path
    · simp [he]
    · rw [if_neg he] at h
      simpa using Or.inr (findEntryValue_mem_keys rest path m h)

theorem graph_get_mem_keys (graph : Graph) (path : String) (m : Module)
    (h : graph.get path = some m) :
    path ∈ graph.dependencies.map Prod.fst :=
  findEntryValue_mem_keys graph.dependencies path m h

theorem missingCount_idPush (graph : Graph) (acc : IDMap)
    (path inverse : String) :
    missingCount graph (idPush acc path inverse) = missingCount graph acc := by
  unfold missingCount
  congr 1
  refine List.filter_congr fun k _ => ?_
  rw [idLookup_idPush]
  by_cases hk : k = path
  · subst hk
    simp only [if_pos rfl]
    cases idLookup acc k <;> rfl
  · rw [if_neg hk]

theorem missingCount_le_of_preserves (graph : Graph) (acc acc' : IDMap)
    (h : PreservesEntries acc acc') :
    missingCount graph acc' ≤ missingCount graph acc := by
  refine List.Sublist.length_le (List.monotone_filter_right _ fun k hk => ?_)
  simp only [Option.isNone_iff_eq_none] at hk ⊢
  by_cases hs : (idLookup acc k).isSome
  · rw [h k hs] at hk
    rw [hk] at hs
    cases hs
  · exact Option.not_isSome_iff_eq_none.mp hs

theorem missingCount_idInsertEmpty_lt (graph : Graph) (acc : IDMap)
    (path : String) (m : Module) (hget : graph.get path = some m)
    (hnone : idLookup acc path = none) :
    missingCount graph (idInsertEmpty acc path) < missingCount graph acc := by
  refine filter_length_lt _ _ _ (fun k hk => ?_) path
    (graph_get_mem_keys graph path m hget) ?_ ?_
  · simp only [Option.isNone_iff_eq_none] at hk ⊢
    rw [idLookup_idInsertEmpty] at hk
    by_cases hs : (idLookup acc k).isSome
    · rw [if_pos hs] at hk
      rw [hk] at hs
      cases hs
    · exact Option.not_isSome_iff_eq_none.mp hs
  · simp [hnone]
  · rw [Option.isNone_eq_false_iff, idLookup_idInsertEmpty, hnone]
    simp

theorem loop_total (graph : Graph) (fuel : Nat)
    (hG : ∀ (path : String) (acc : IDMap), missingCount graph acc < fuel →
      (_getInverseDependencies graph fuel path acc).isSome) :
    ∀ (invs : List String) (path : String) (acc : IDMap),
      missingCount graph acc < fuel →
      (inverseLoop graph fuel path invs acc).isSome := by
  intro invs
  induction invs with
  | nil => intro path acc _; simp [inverseLoop_nil]
  | cons inverse rest ih =>
    intro path acc hlt
    have h1 : missingCount graph (idPush acc path inverse) < fuel := by
      rwa [missingCount_idPush]
    obtain ⟨acc₂, hacc₂⟩ := Option.isSome_iff_exists.mp (hG inverse _ h1)
    have h2 : missingCount graph acc₂ < fuel :=
      Nat.lt_of_le_of_lt
        (missingCount_le_of_preserves graph _ acc₂
          (getInv_spec graph fuel inverse _ acc₂ hacc₂).1) h1
    rw [inverseLoop_cons, hacc₂]
    exact ih path acc₂ h2

theorem getInv_total (graph : Graph) : ∀ fuel : Nat,
    ∀ (path : String) (acc : IDMap), missingCount graph acc < fuel →
      (_getInverseDependencies graph fuel path acc).isSome := by
  intro fuel
  induction fuel with
  | zero => intro path acc h; cases h
  | succ fuel ih =>
    intro path acc hlt
    rw [getInv_succ]
    by_cases hmem : (idLookup acc path).isSome
    · simp [hmem]
    · rw [if_neg hmem]
      have hnone : idLookup acc path = none :=
        Option.not_isSome_iff_eq_none.mp hmem
      cases hget : graph.get path with
      | none => simp
      | some module =>
        have hdrop : missingCount graph (idInsertEmpty acc path) < fuel :=
          Nat.lt_of_lt_of_le
            (missingCount_idInsertEmpty_lt graph acc path module hget hnone)
            (Nat.lt_succ_iff.mp hlt)
        exact loop_total graph fuel ih module.inverseDependencies path _ hdrop

theorem missingCount_nil (graph : Graph) :
    missingCount graph [] = graph.dependencies.length := by
  simp [missingCount, idLookup]

/-- The traversal with the fuel used by resolveInverseDependencies always
returns a result, and resolveInverseDependencies returns exactly it. -/
theorem resolve_eq (graph : Graph) (path : String) :
    ∃ acc', _getInverseDependencies graph (graph.dependencies.length + 1)
        path [] = some acc' ∧
      resolveInverseDependencies graph path = acc' := by
  obtain ⟨acc', h⟩ := Option.isSome_iff_exists.mp
    (getInv_total graph (graph.dependencies.length + 1) path []
      (by rw [missingCount_nil]; omega))
  exact ⟨acc', h, by simp [resolveInverseDependencies, h]⟩

/-! Characterization of generateModules: the three output arrays are the
image of the isJsModule-filtered input list under per-module functions, so
they are positionally aligned by construction, and the net effect on the
options record is a left fold of pathname overwrites. -/

theorem stepOptions_createModuleId (p : Prims) (o : Options) (m : Module) :
    (stepOptions p o m).createModuleId = o.createModuleId := rfl

theorem stepOptions_projectRoot (p : Prims) (o : Options) (m : Module) :
    (stepOptions p o m).projectRoot = o.projectRoot := rfl

theorem stepOptions_rest (p : Prims) (o : Options) (m : Module) :
    (stepOptions p o m).clientUrl.rest = o.clientUrl.rest := rfl

theorem stepOptions_pathname (p : Prims) (o : Options) (m : Module) :
    (stepOptions p o m).clientUrl.pathname =
      bundlePathname p o.projectRoot (p.getSourceMapInfo m).path := rfl

theorem sourceURLOf_congr (p : Prims) {o₁ o₂ : Options} (m : Module)
    (hroot : o₁.projectRoot = o₂.projectRoot)
    (hrest : o₁.clientUrl.rest = o₂.clientUrl.rest) :
    sourceURLOf p o₁ m = sourceURLOf p o₂ m := by
  simp only [sourceURLOf, stepOptions]
  rw [hroot, hrest]

theorem foldl_stepOptions_createModuleId (p : Prims) :
    ∀ (l : List Module) (o : Options),
      (l.foldl (stepOptions p) o).createModuleId = o.createModuleId := by
  intro l
  induction l with
  | nil => intro o; rfl
  | cons m rest ih =>
    intro o
    rw [List.foldl_cons, ih, stepOptions_createModuleId]

theorem foldl_stepOptions_projectRoot (p : Prims) :
    ∀ (l : List Module) (o : Options),
      (l.foldl (stepOptions p) o).projectRoot = o.projectRoot := by
  intro l
  induction l with
  | nil => intro o; rfl
  | cons m rest ih =>
    intro o
    rw [List.foldl_cons, ih, stepOptions_projectRoot]

theorem foldl_stepOptions_rest (p : Prims) :
    ∀ (l : List Module) (o : Options),
      (l.foldl (stepOptions p) o).clientUrl.rest = o.clientUrl.rest := by
  intro l
  induction l with
  | nil => intro o; rfl
  | cons m rest ih =>
    intro o
    rw [List.foldl_cons, ih, stepOptions_rest]

theorem foldl_stepOptions_pathname (p : Prims) :
    ∀ (l : List Module) (o : Options),
      (l.foldl (stepOptions p) o).clientUrl.pathname =
        match l.getLast? with
        | some m => bundlePathname p o.projectRoot (p.getSourceMapInfo m).path
        | none => o.clientUrl.pathname := by
  intro l
  induction l using List.reverseRecOn with
  | nil => intro o; rfl
  | append_singleton l m ih =>
    intro o
    rw [List.foldl_append, List.foldl_cons, List.foldl_nil, List.getLast?_concat,
      stepOptions_pathname, foldl_stepOptions_projectRoot]

theorem generateModules_spec (p : Prims) (graph : Graph) :
    ∀ (mods : List Module) (options : Options),
      (generateModules p mods graph options).1.modules.map Prod.fst =
        (mods.filter p.isJsModule).map
          (fun m => options.createModuleId m.path) ∧
      (generateModules p mods graph options).1.sourceMappingURLs =
        (mods.filter p.isJsModule).map (sourceMappingURLOf p) ∧
      (generateModules p mods graph options).1.sourceURLs =
        (mods.filter p.isJsModule).map (sourceURLOf p options) ∧
      (generateModules p mods graph options).2 =
        (mods.filter p.isJsModule).foldl (stepOptions p) options := by
  intro mods
  induction mods with
  | nil => intro options; simp [generateModules]
  | cons module rest ih =>
    intro options
    cases hjs : p.isJsModule module with
    | false => simpa [generateModules, hjs] using ih options
    | true =>
      obtain ⟨ih1, ih2, ih3, ih4⟩ := ih (stepOptions p options module)
      refine ⟨?_, ?_, ?_, ?_⟩
      · simp only [generateModules, hjs, if_true, List.filter_cons,
          List.map_cons, ih1, stepOptions_createModuleId]
      · simp only [generateModules, hjs, if_true, List.filter_cons,
          List.map_cons, ih2]
      · simp only [generateModules, hjs, if_true, List.filter_cons,
          List.map_cons, ih3, sourceURLOf]
        refine congrArg₂ List.cons rfl ?_
        refine List.map_congr_left fun m _ => ?_
        have h := sourceURLOf_congr p m (stepOptions_projectRoot p options module)
          (stepOptions_rest p options module)
        simpa [sourceURLOf] using h
      · simp only [generateModules, hjs, if_true, List.filter_cons,
          List.foldl_cons, ih4]

theorem generateModules_lengths (p : Prims) (graph : Graph)
    (mods : List Module) (options : Options) :
    (generateModules p mods graph options).1.modules.length =
        (mods.filter p.isJsModule).length ∧
      (generateModules p mods graph options).1.sourceMappingURLs.length =
        (mods.filter p.isJsModule).length ∧
      (generateModules p mods graph options).1.sourceURLs.length =
        (mods.filter p.isJsModule).length := by
  obtain ⟨h1, h2, h3, _⟩ := generateModules_spec p graph mods options
  refine ⟨?_, ?_, ?_⟩
  · have := congrArg List.length h1
    simpa using this
  · have := congrArg List.length h2
    simpa using this
  · have := congrArg List.length h3
    simpa using this

theorem generateModules_erase_nonJs (p : Prims) (graph : Graph) (m : Module)
    (hm : p.isJsModule m = false) :
    ∀ (xs ys : List Module) (options : Options),
      generateModules p (xs ++ m :: ys) graph options =
        generateModules p (xs ++ ys) graph options := by
  intro xs
  induction xs with
  | nil => intro ys options; simp [generateModules, hm]
  | cons x xs ih =>
    intro ys options
    simp only [List.cons_append, generateModules]
    cases hx : p.isJsModule x
    · simp only [Bool.false_eq_true, if_false]
      exact ih ys options
    · simp only [if_true, List.append_eq, ih]

/-! Concrete fixtures used by the example halves of the claims and by the
witnesses. -/

/-- Two-module cycle: each module lists the other as inverse dependency. -/
def cycleGraph : Graph :=
  ⟨[("/a.js", ⟨"/a.js", ["/b.js"], "acode"⟩),
    ("/b.js", ⟨"/b.js", ["/a.js"], "bcode"⟩)]⟩

/-- Diamond: a is depended on by b and c, both depended on by d. -/
def diamondGraph : Graph :=
  ⟨[("/a.js", ⟨"/a.js", ["/b.js", "/c.js"], "acode"⟩),
    ("/b.js", ⟨"/b.js", ["/d.js"], "bcode"⟩),
    ("/c.js", ⟨"/c.js", ["/d.js"], "ccode"⟩),
    ("/d.js", ⟨"/d.js", [], "dcode"⟩)]⟩

/-- One module whose recorded inverse dependency has no graph entry. -/
def danglingGraph : Graph := ⟨[("/a.js", ⟨"/a.js", ["/x.js"], "acode"⟩)]⟩

/-- One leaf module with no inverse dependencies. -/
def leafGraph : Graph := ⟨[("/leaf.js", ⟨"/leaf.js", [], "leafcode"⟩)]⟩

/-- Concrete options: ids 1 and 2 for /a.js and /b.js, 7 otherwise. -/
def demoOptions : Options :=
  ⟨⟨"/initial", "hostpart"⟩,
   fun path => if path = "/a.js" then 1 else if path = "/b.js" then 2 else 7,
   "/project"⟩

/-- Concrete instantiation of the external primitives; modules whose code
blob is the asset marker count as non-source modules. -/
def demoPrims : Prims :=
  ⟨fun m => m.code != "asset",
   fun m _ dev => m.code ++ (if dev then "|dev" else ""),
   fun m => ⟨m.path, m.code⟩,
   fun info => info.data,
   fun s => "map:" ++ s,
   fun s => "dir:" ++ s,
   fun s => "base:" ++ s,
   fun a b => a ++ "/" ++ b,
   fun root q => "rel:" ++ root ++ ":" ++ q,
   fun c => c.rest ++ c.pathname,
   fun code params => code ++ "#" ++ toString params.length⟩

/-- A concrete source-language module. -/
def demoJsModule : Module := ⟨"/a.js", [], "ajscode"⟩

/-- A concrete non-source (asset) module. -/
def demoAssetModule : Module := ⟨"/img.png", [], "asset"⟩

/-- A concrete delta containing one added module and one deleted path. -/
def demoDelta : DeltaResult := ⟨[demoJsModule], [], ["/b.js"]⟩

/-! The claims. -/

/-- Claim C1: for every delta, graph and options, the payload returned by
hmrJSBundle has added, addedSourceMappingURLs and addedSourceURLs of
identical length — one entry per eligible added module, in iteration
order — and likewise for the modified family; the source-map URL and the
source URL at index i are the ones computed for the module whose (id, code)
record sits at index i. -/
theorem hmrJSBundle_index_alignment (p : Prims) (delta : DeltaResult)
    (graph : Graph) (options : Options) :
    ((hmrJSBundle p delta graph options).1.added.length =
        (delta.added.filter p.isJsModule).length ∧
      (hmrJSBundle p delta graph options).1.addedSourceMappingURLs.length =
        (delta.added.filter p.isJsModule).length ∧
      (hmrJSBundle p delta graph options).1.addedSourceURLs.length =
        (delta.added.filter p.isJsModule).length ∧
      (hmrJSBundle p delta graph options).1.added.map Prod.fst =
        (delta.added.filter p.isJsModule).map
          (fun m => options.createModuleId m.path) ∧
      (hmrJSBundle p delta graph options).1.addedSourceMappingURLs =
        (delta.added.filter p.isJsModule).map (sourceMappingURLOf p) ∧
      (hmrJSBundle p delta graph options).1.addedSourceURLs =
        (delta.added.filter p.isJsModule).map (sourceURLOf p options)) ∧
    ((hmrJSBundle p delta graph options).1.modified.length =
        (delta.modified.filter p.isJsModule).length ∧
      (hmrJSBundle p delta graph options).1.modifiedSourceMappingURLs.length =
        (delta.modified.filter p.isJsModule).length ∧
      (hmrJSBundle p delta graph options).1.modifiedSourceURLs.length =
        (delta.modified.filter p.isJsModule).length ∧
      (hmrJSBundle p delta graph options).1.modified.map Prod.fst =
        (delta.modified.filter p.isJsModule).map
          (fun m => options.createModuleId m.path) ∧
      (hmrJSBundle p delta graph options).1.modifiedSourceMappingURLs =
        (delta.modified.filter p.isJsModule).map (sourceMappingURLOf p) ∧
      (hmrJSBundle p delta graph options).1.modifiedSourceURLs =
        (delta.modified.filter p.isJsModule).map (sourceURLOf p options)) := by
  obtain ⟨a1, a2, a3, a4⟩ := generateModules_spec p graph delta.added options
  obtain ⟨la1, la2, la3⟩ := generateModules_lengths p graph delta.added options
  obtain ⟨m1, m2, m3, m4⟩ := generateModules_spec p graph delta.modified
    (generateModules p delta.added graph options).2
  obtain ⟨lm1, lm2, lm3⟩ := generateModules_lengths p graph delta.modified
    (generateModules p delta.added graph options).2
  have hid : (generateModules p delta.added graph options).2.createModuleId =
      options.createModuleId := by
    rw [a4]
    exact foldl_stepOptions_createModuleId p _ options
  have hroot : (generateModules p delta.added graph options).2.projectRoot =
      options.projectRoot := by
    rw [a4]
    exact foldl_stepOptions_projectRoot p _ options
  have hrest : (generateModules p delta.added graph options).2.clientUrl.rest =
      options.clientUrl.rest := by
    rw [a4]
    exact foldl_stepOptions_rest p _ options
  refine ⟨⟨la1, la2, la3, a1, a2, a3⟩, lm1, lm2, lm3, ?_, m2, ?_⟩
  · show (generateModules p delta.modified graph
        (generateModules p delta.added graph options).2).1.modules.map Prod.fst
      = _
    rw [m1]
    refine List.map_congr_left fun m _ => ?_
    rw [hid]
  · show (generateModules p delta.modified graph
        (generateModules p delta.added graph options).2).1.sourceURLs = _
    rw [m3]
    refine List.map_congr_left fun m _ => ?_
    exact sourceURLOf_congr p m hroot hrest

/-- Claim C2: the inverse-dependency resolution terminates for every graph
and start path — the fuel bound used by resolveInverseDependencies always
returns a result, cycles included — and on the two-module cycle resolving
from /a.js produces exactly the map sending /a.js to [/b.js] and /b.js to
[/a.js], each path appearing once as a key. -/
theorem inverse_dependency_resolution_terminates :
    (∀ (graph : Graph) (path : String),
      ∃ result,
        _getInverseDependencies graph (graph.dependencies.length + 1) path []
          = some result) ∧
    resolveInverseDependencies cycleGraph "/a.js" =
      [("/a.js", ["/b.js"]), ("/b.js", ["/a.js"])] := by
  refine ⟨fun graph path => ?_, by rfl⟩
  obtain ⟨acc', h, -⟩ := resolve_eq graph path
  exact ⟨acc', h⟩

/-- Claim C3: during one resolution call every path is expanded at most
once — the key list of every resolved map is duplicate-free — and on the
diamond graph resolving from /a.js expands /d.js exactly once: it appears
exactly once as a key even though two paths reach it. -/
theorem traversal_deduplication :
    (∀ (graph : Graph) (path : String),
      ((resolveInverseDependencies graph path).map Prod.fst).Nodup) ∧
    resolveInverseDependencies diamondGraph "/a.js" =
      [("/a.js", ["/b.js", "/c.js"]), ("/b.js", ["/d.js"]),
       ("/d.js", []), ("/c.js", ["/d.js"])] ∧
    ((resolveInverseDependencies diamondGraph "/a.js").map Prod.fst).count
        "/d.js" = 1 := by
  refine ⟨fun graph path => ?_, by rfl, by rfl⟩
  obtain ⟨acc', h, hres⟩ := resolve_eq graph path
  rw [hres]
  exact (getInv_spec graph _ path [] acc' h).2.2 (by simp)

/-- Claim C4: the deleted field of the payload is the image of delta.deleted
under options.createModuleId in enumeration order; in particular deleting
/a.js and /b.js with ids 1 and 2 yields [1, 2]. -/
theorem deleted_translation :
    (∀ (p : Prims) (delta : DeltaResult) (graph : Graph) (options : Options),
      (hmrJSBundle p delta graph options).1.deleted =
        delta.deleted.map options.createModuleId) ∧
    (hmrJSBundle demoPrims ⟨[], [], ["/a.js", "/b.js"]⟩ ⟨[]⟩
        demoOptions).1.deleted = [1, 2] :=
  ⟨fun _ _ _ _ => rfl, by rfl⟩

/-- Claim C5: a module that is not a source-language module contributes no
entry to any collection of the payload: deleting it from the added (or
modified) list leaves the entire generateModules result and the entire
hmrJSBundle result unchanged. -/
theorem nonJs_modules_excluded (p : Prims) (graph : Graph) (m : Module)
    (hm : p.isJsModule m = false) :
    (∀ (xs ys : List Module) (options : Options),
      generateModules p (xs ++ m :: ys) graph options =
        generateModules p (xs ++ ys) graph options) ∧
    (∀ (xs ys mods : List Module) (del : List String) (options : Options),
      hmrJSBundle p ⟨xs ++ m :: ys, mods, del⟩ graph options =
        hmrJSBundle p ⟨xs ++ ys, mods, del⟩ graph options) ∧
    (∀ (xs ys mods : List Module) (del : List String) (options : Options),
      hmrJSBundle p ⟨mods, xs ++ m :: ys, del⟩ graph options =
        hmrJSBundle p ⟨mods, xs ++ ys, del⟩ graph options) := by
  refine ⟨generateModules_erase_nonJs p graph m hm, ?_, ?_⟩
  · intro xs ys mods del options
    unfold hmrJSBundle
    dsimp only
    rw [generateModules_erase_nonJs p graph m hm xs ys options]
  · intro xs ys mods del options
    unfold hmrJSBundle
    dsimp only
    rw [generateModules_erase_nonJs p graph m hm xs ys
      (generateModules p mods graph options).2]

/-- Claim C5 witness: with the concrete primitives, the concrete asset
module is non-source and removing it from an added list leaves the
generateModules result unchanged. -/
theorem nonJs_modules_excluded_witness :
    demoPrims.isJsModule demoAssetModule = false ∧
    generateModules demoPrims ([] ++ demoAssetModule :: [demoJsModule]) ⟨[]⟩
        demoOptions =
      generateModules demoPrims ([] ++ [demoJsModule]) ⟨[]⟩ demoOptions :=
  ⟨by rfl,
   (nonJs_modules_excluded demoPrims ⟨[]⟩ demoAssetModule (by rfl)).1
     [] [demoJsModule] demoOptions⟩

/-- Claim C6: for fixed inputs and pointwise-equal deterministic collaborator
primitives and options, two invocations of hmrJSBundle produce identical
payloads (and identical final options states). -/
theorem hmr_payload_determinism (p₁ p₂ : Prims) (delta : DeltaResult)
    (graph : Graph) (o₁ o₂ : Options)
    (h01 : ∀ m, p₁.isJsModule m = p₂.isJsModule m)
    (h02 : ∀ m o b, p₁.wrapModule m o b = p₂.wrapModule m o b)
    (h03 : ∀ m, p₁.getSourceMapInfo m = p₂.getSourceMapInfo m)
    (h04 : ∀ i, p₁.fromRawMappingsToString i = p₂.fromRawMappingsToString i)
    (h05 : ∀ s, p₁.getInlineSourceMappingURL s = p₂.getInlineSourceMappingURL s)
    (h06 : ∀ s, p₁.pathDirname s = p₂.pathDirname s)
    (h07 : ∀ s, p₁.pathBasenameNoExt s = p₂.pathBasenameNoExt s)
    (h08 : ∀ a b, p₁.pathJoin a b = p₂.pathJoin a b)
    (h09 : ∀ a b, p₁.pathRelative a b = p₂.pathRelative a b)
    (h10 : ∀ c, p₁.urlFormat c = p₂.urlFormat c)
    (h11 : ∀ s l, p₁.addParamsToDefineCall s l = p₂.addParamsToDefineCall s l)
    (h12 : o₁.clientUrl = o₂.clientUrl)
    (h13 : ∀ s, o₁.createModuleId s = o₂.createModuleId s)
    (h14 : o₁.projectRoot = o₂.projectRoot) :
    hmrJSBundle p₁ delta graph o₁ = hmrJSBundle p₂ delta graph o₂ := by
  have hp : p₁ = p₂ := by
    cases p₁
    cases p₂
    congr 1
    · exact funext h01
    · exact funext fun m => funext fun o => funext fun b => h02 m o b
    · exact funext h03
    · exact funext h04
    · exact funext h05
    · exact funext h06
    · exact funext h07
    · exact funext fun a => funext fun b => h08 a b
    · exact funext fun a => funext fun b => h09 a b
    · exact funext h10
    · exact funext fun s => funext fun l => h11 s l
  have ho : o₁ = o₂ :=
    congr (congr (congrArg Options.mk h12) (funext h13)) h14
  rw [hp, ho]

/-- Claim C6 witness: a concrete instantiation of the determinism theorem. -/
theorem hmr_payload_determinism_witness :
    hmrJSBundle demoPrims demoDelta cycleGraph demoOptions =
      hmrJSBundle demoPrims demoDelta cycleGraph demoOptions :=
  hmr_payload_determinism demoPrims demoPrims demoDelta cycleGraph
    demoOptions demoOptions (fun _ => rfl) (fun _ _ _ => rfl) (fun _ => rfl)
    (fun _ => rfl) (fun _ => rfl) (fun _ => rfl) (fun _ => rfl)
    (fun _ _ => rfl) (fun _ _ => rfl) (fun _ => rfl) (fun _ _ => rfl)
    rfl (fun _ => rfl) rfl

/-- Claim C7 counterexample: for the concrete leaf module, resolution does
yield the single-entry map, but the inverse-dependency parameter injected
into the wrapped registration call is the one-entry mapping from the
module's id to an empty list — it is not an empty mapping, contrary to the
claim. -/
theorem leaf_injected_parameter_not_empty :
    resolveInverseDependencies leafGraph "/leaf.js" = [("/leaf.js", [])] ∧
    inverseDependenciesById demoOptions
        (resolveInverseDependencies leafGraph "/leaf.js") = [(7, [])] ∧
    inverseDependenciesById demoOptions
        (resolveInverseDependencies leafGraph "/leaf.js") ≠ [] := by
  refine ⟨by rfl, by rfl, by decide⟩

/-- Claim C7 (amended): for a module present in the graph with an empty
inverse-dependency set, resolving its path yields exactly the single-entry
map sending the path to an empty list, and the inverse-dependency parameter
injected into the module's wrapped registration call is the single-entry
mapping from the module's id to an empty list. -/
theorem leaf_module_resolution (graph : Graph) (path : String) (m : Module)
    (options : Options) (hget : graph.get path = some m)
    (hinv : m.inverseDependencies = []) :
    resolveInverseDependencies graph path = [(path, [])] ∧
    inverseDependenciesById options (resolveInverseDependencies graph path) =
      [(options.createModuleId path, [])] := by
  have h1 : resolveInverseDependencies graph path = [(path, [])] := by
    unfold resolveInverseDependencies
    rw [getInv_succ, hget]
    simp [idLookup, hinv, inverseLoop_nil, idInsertEmpty]
  refine ⟨h1, ?_⟩
  rw [h1]
  simp [inverseDependenciesById, setKey]

/-- Claim C7 (amended) witness: the amended statement at the concrete leaf
module. -/
theorem leaf_module_resolution_witness :
    resolveInverseDependencies leafGraph "/leaf.js" = [("/leaf.js", [])] ∧
    inverseDependenciesById demoOptions
        (resolveInverseDependencies leafGraph "/leaf.js") =
      [(demoOptions.createModuleId "/leaf.js", [])] :=
  leaf_module_resolution leafGraph "/leaf.js" ⟨"/leaf.js", [], "leafcode"⟩
    demoOptions (by rfl) rfl

/-- Claim C8: reaching a path with no graph entry is not an error and stops
the descent: the traversal returns the accumulated map unchanged there, such
a path never becomes a key of a resolved map, and a start path absent from
the graph resolves to the empty map. -/
theorem missing_module_boundary :
    (∀ (graph : Graph) (fuel : Nat) (path : String) (acc : IDMap),
      graph.get path = none →
      _getInverseDependencies graph (fuel + 1) path acc = some acc) ∧
    (∀ (graph : Graph) (path : String), graph.get path = none →
      resolveInverseDependencies graph path = []) ∧
    (∀ (graph : Graph) (start q : String), graph.get q = none →
      idLookup (resolveInverseDependencies graph start) q = none) := by
  have h1 : ∀ (graph : Graph) (fuel : Nat) (path : String) (acc : IDMap),
      graph.get path = none →
      _getInverseDependencies graph (fuel + 1) path acc = some acc := by
    intro graph fuel path acc hget
    rw [getInv_succ, hget]
    by_cases hmem : (idLookup acc path).isSome <;> simp [hmem]
  refine ⟨h1, fun graph path hget => ?_, fun graph start q hget => ?_⟩
  · unfold resolveInverseDependencies
    rw [h1 graph graph.dependencies.length path [] hget]
    rfl
  · obtain ⟨acc', h, hres⟩ := resolve_eq graph start
    rw [hres]
    rcases (getInv_spec graph _ start [] acc' h).2.1 q rfl with hnone | ⟨m, hm, -⟩
    · exact hnone
    · rw [hget] at hm
      cases hm

/-- Claim C8 witness: concrete instances of the three boundary statements. -/
theorem missing_module_boundary_witness :
    _getInverseDependencies (⟨[]⟩ : Graph) 1 "/ghost.js"
        [("/p.js", ["/q.js"])] = some [("/p.js", ["/q.js"])] ∧
    resolveInverseDependencies ⟨[]⟩ "/ghost.js" = [] ∧
    idLookup (resolveInverseDependencies danglingGraph "/a.js") "/x.js"
      = none :=
  ⟨missing_module_boundary.1 ⟨[]⟩ 0 "/ghost.js" [("/p.js", ["/q.js"])] rfl,
   missing_module_boundary.2.1 ⟨[]⟩ "/ghost.js" rfl,
   missing_module_boundary.2.2 danglingGraph "/a.js" "/x.js" (by rfl)⟩

/-- Claim C9: hmrJSBundle's net effect on the caller's options record is to
overwrite options.clientUrl.pathname with the bundle pathname of the last
eligible modified module (or, when no modified module is eligible, the last
eligible added module, or the original pathname when neither exists); the
id function, the project root and the rest of the client URL are untouched.
The graph and delta inputs are consumed read-only by the embedding. -/
theorem options_clientUrl_mutation (p : Prims) (delta : DeltaResult)
    (graph : Graph) (options : Options) :
    ((hmrJSBundle p delta graph options).2.createModuleId =
        options.createModuleId) ∧
    ((hmrJSBundle p delta graph options).2.projectRoot =
        options.projectRoot) ∧
    ((hmrJSBundle p delta graph options).2.clientUrl.rest =
        options.clientUrl.rest) ∧
    ((hmrJSBundle p delta graph options).2.clientUrl.pathname =
      match (delta.modified.filter p.isJsModule).getLast? with
      | some m =>
        bundlePathname p options.projectRoot (p.getSourceMapInfo m).path
      | none =>
        match (delta.added.filter p.isJsModule).getLast? with
        | some m =>
          bundlePathname p options.projectRoot (p.getSourceMapInfo m).path
        | none => options.clientUrl.pathname) := by
  obtain ⟨-, -, -, a4⟩ := generateModules_spec p graph delta.added options
  obtain ⟨-, -, -, m4⟩ := generateModules_spec p graph delta.modified
    (generateModules p delta.added graph options).2
  have hfin : (hmrJSBundle p delta graph options).2 =
      (generateModules p delta.modified graph
        (generateModules p delta.added graph options).2).2 := rfl
  rw [hfin, m4, a4]
  refine ⟨?_, ?_, ?_, ?_⟩
  · rw [foldl_stepOptions_createModuleId, foldl_stepOptions_createModuleId]
  · rw [foldl_stepOptions_projectRoot, foldl_stepOptions_projectRoot]
  · rw [foldl_stepOptions_rest, foldl_stepOptions_rest]
  · rw [foldl_stepOptions_pathname]
    cases hlast : (delta.modified.filter p.isJsModule).getLast? with
    | some m =>
      dsimp only
      rw [foldl_stepOptions_projectRoot]
    | none =>
      dsimp only
      rw [foldl_stepOptions_pathname]

/-- Claim C10: every key of a resolved inverse-dependency map has a module
entry in the graph, and the value stored under a key is exactly that
module's inverseDependencies list in the graph's enumeration order; value
elements need not themselves be keys, as the dangling-edge example shows. -/
theorem inverse_dependency_map_entries :
    (∀ (graph : Graph) (start k : String) (vs : List String),
      idLookup (resolveInverseDependencies graph start) k = some vs →
      ∃ m, graph.get k = some m ∧ vs = m.inverseDependencies) ∧
    resolveInverseDependencies danglingGraph "/a.js" =
      [("/a.js", ["/x.js"])] ∧
    idLookup (resolveInverseDependencies danglingGraph "/a.js") "/x.js"
      = none := by
  refine ⟨?_, by rfl, by rfl⟩
  intro graph start k vs hlook
  obtain ⟨acc', h, hres⟩ := resolve_eq graph start
  rw [hres] at hlook
  rcases (getInv_spec graph _ start [] acc' h).2.1 k rfl with hnone | ⟨m, hm, hv⟩
  · rw [hlook] at hnone
    cases hnone
  · rw [hlook] at hv
    exact ⟨m, hm, Option.some.inj hv⟩

/-- Claim C10 witness: the invariant applied to the /a.js entry of the
dangling-edge example. -/
theorem inverse_dependency_map_entries_witness :
    ∃ m, danglingGraph.get "/a.js" = some m ∧
      ["/x.js"] = m.inverseDependencies :=
  inverse_dependency_map_entries.1 danglingGraph "/a.js" "/a.js" ["/x.js"]
    (by rfl)

end Metro
